import Mathlib

/-!
# Product plans of the billing package

A shallow embedding of `enterprise/cmd/frontend/internal/dotcom/billing/plans_graphql.go`:
the mapping of one billing plan to the GraphQL type `ProductPlan` (`ToProductPlan`,
`ProductPlanMinQuantity`) and the assembly of the sorted list of plans (`ProductPlans`).

Conventions of the embedding.

* Go's `int64`, `int32` and `int` values are integers of `Int`; a conversion `int32(v)` is
  `toInt32 v`, the wrap-around into the signed 32-bit range. The theorems quantify over all
  integers, hence in particular over all 64-bit ones.
* Go strings are `String`s, that is, sequences of Unicode code points (valid UTF-8).
* A Go result `(value, error)` of which exactly one is set is an `Except String _`, the
  string being the error's message.
* The library functions the file calls (`strconv.Atoi`, the `%q` and `%d` verbs of
  `fmt.Errorf`, `sort.Slice`) are modelled after the Go standard library; each model says in
  its comment what it follows.
-/

namespace stripe

/-- The billing library's `Product`, with the fields the package reads. `Metadata` is the
Go map `map[string]string`, as an association list (the first binding of a key counts). -/
structure Product where
  ID : String
  Name : String
  Metadata : List (String × String)
deriving DecidableEq

/-- The billing library's `PlanTier`. -/
structure PlanTier where
  UnitAmount : Int
  UpTo : Int
deriving DecidableEq

/-- The billing library's `Plan`, with the fields the package reads. `Product` is the
expanded product (the pointer is taken to be non-nil). -/
structure Plan where
  ID : String
  Product : Product
  Currency : String
  Interval : String
  IntervalCount : Int
  Amount : Int
  TiersMode : String
  Tiers : List PlanTier
deriving DecidableEq

/-- The library's constant `stripe.CurrencyUSD`. -/
def CurrencyUSD : String := "usd"

/-- The library's constant `stripe.PlanIntervalYear`. -/
def PlanIntervalYear : String := "year"

end stripe

namespace billing

/-! ## Machine integers -/

/-- The Go conversion `int32(v)` of a wider integer: `v` wrapped around into
`[-2^31, 2^31 - 1]`. -/
def toInt32 (v : Int) : Int := (v + 2 ^ 31) % 2 ^ 32 - 2 ^ 31

/-! ## Library models: map indexing, `strconv.Atoi`, `strconv.Quote` -/

/-- The Go expression `m[key]` on a `map[string]string`: the value stored under `key`, or the
empty string when the key is absent. -/
def mapIndex (m : List (String × String)) (key : String) : String :=
  (m.lookup key).getD ""

/-- The digit loop of `strconv.Atoi`: `n = n*10 + (ch - '0')` for each byte, failing on a
byte outside `'0'..'9'`. -/
def parseDigits : Nat → List Char → Option Nat
  | n, [] => some n
  | n, ch :: rest =>
    if 48 ≤ ch.toNat ∧ ch.toNat ≤ 57 then parseDigits (n * 10 + (ch.toNat - 48)) rest
    else none

/-- Model of `strconv.Atoi` on a platform whose `int` has 64 bits: `none` stands for a
non-nil error. The string must be an optional sign `+` or `-` followed by at least one
decimal digit (syntax error otherwise, also for the empty string), and the value must fit
the signed 64-bit range (range error otherwise). -/
def Atoi (s : String) : Option Int :=
  match s.data with
  | [] => none
  | c :: rest =>
    let body := if c = '-' ∨ c = '+' then rest else c :: rest
    if body.isEmpty then none
    else
      match parseDigits 0 body with
      | none => none
      | some n =>
        let v : Int := if c = '-' then -(n : Int) else (n : Int)
        if -(2 : Int) ^ 63 ≤ v ∧ v < 2 ^ 63 then some v else none

/-- The double quote character, the `quote` byte of `strconv.Quote`. -/
def quoteChar : Char := Char.ofNat 0x22

/-- The backslash character. -/
def backslashChar : Char := Char.ofNat 0x5C

/-- The digit of `strconv`'s constant `lowerhex = "0123456789abcdef"` at index `n`. -/
def lowerhex (n : Nat) : Char :=
  ['0', '1', '2', '3', '4', '5', '6', '7', '8', '9', 'a', 'b', 'c', 'd', 'e', 'f'].getD n '0'

/-- Model of `strconv.IsPrint`. The Latin-1 fast path is the library's; above `0xFF` the
library searches its Unicode tables, which are the parameter `isPrintTable` here. -/
def IsPrint (isPrintTable : Char → Bool) (r : Char) : Bool :=
  if r.toNat ≤ 0xFF then
    if 0x20 ≤ r.toNat ∧ r.toNat ≤ 0x7E then true
    else if 0xA1 ≤ r.toNat ∧ r.toNat ≤ 0xFF then r.toNat != 0xAD
    else false
  else isPrintTable r

/-- The hexadecimal digits `lowerhex[r>>s & 0xF]` for `s = 4*(k-1), ..., 4, 0`. -/
def hexDigits (r : Nat) : Nat → List Char
  | 0 => []
  | k + 1 => lowerhex (r / 16 ^ k % 16) :: hexDigits r k

/-- Model of `strconv.appendEscapedRune` as `strconv.Quote` calls it (quote `"`, neither
ASCII-only nor graphic-only), returning what is appended to the buffer. -/
def escapedRune (isPrintTable : Char → Bool) (r : Char) : List Char :=
  if r = quoteChar ∨ r = backslashChar then [backslashChar, r]
  else if IsPrint isPrintTable r then [r]
  else if r.toNat = 0x07 then [backslashChar, 'a']
  else if r.toNat = 0x08 then [backslashChar, 'b']
  else if r.toNat = 0x0C then [backslashChar, 'f']
  else if r.toNat = 0x0A then [backslashChar, 'n']
  else if r.toNat = 0x0D then [backslashChar, 'r']
  else if r.toNat = 0x09 then [backslashChar, 't']
  else if r.toNat = 0x0B then [backslashChar, 'v']
  else if r.toNat < 0x20 ∨ r.toNat = 0x7F then backslashChar :: 'x' :: hexDigits r.toNat 2
  else if r.toNat < 0x10000 then backslashChar :: 'u' :: hexDigits r.toNat 4
  else backslashChar :: 'U' :: hexDigits r.toNat 8

/-- Model of `strconv.Quote`, which is what the verb `%q` of `fmt` prints for a string: the
runes of `s`, escaped, between double quotes. -/
def Quote (isPrintTable : Char → Bool) (s : String) : String :=
  String.mk (quoteChar :: (s.data.flatMap (escapedRune isPrintTable) ++ [quoteChar]))

/-- What the verb `%d` of `fmt` prints for an integer: its decimal digits, after a `-` when
it is negative. -/
def formatDecimal (n : Int) : String := toString n

/-! ## The GraphQL types -/

/-- The type `planTier`, implementing the GraphQL type `PlanTier`. -/
structure planTier where
  unitAmount : Int
  upTo : Int
deriving DecidableEq

/-- The type `productPlan`, implementing the GraphQL type `ProductPlan`. `minQuantity` is
the pointer `*int32`, `none` being nil. -/
structure productPlan where
  billingPlanID : String
  productPlanID : String
  name : String
  pricePerUserPerYear : Int
  minQuantity : Option Int
  tiersMode : String
  planTiers : List planTier
deriving DecidableEq

def productPlan.ProductPlanID (r : productPlan) : String := r.productPlanID
def productPlan.BillingPlanID (r : productPlan) : String := r.billingPlanID
def productPlan.Name (r : productPlan) : String := r.name
def productPlan.NameWithBrand (r : productPlan) : String := "Sourcegraph " ++ r.name
def productPlan.PricePerUserPerYear (r : productPlan) : Int := r.pricePerUserPerYear
def productPlan.MinQuantity (r : productPlan) : Option Int := r.minQuantity
def productPlan.TiersMode (r : productPlan) : String := r.tiersMode
def productPlan.PlanTiers (r : productPlan) : List planTier := r.planTiers

def planTier.UnitAmount (r : planTier) : Int := toInt32 r.unitAmount
def planTier.UpTo (r : planTier) : Int := toInt32 r.upTo

/-! ## `ProductPlanMinQuantity` and `ToProductPlan` -/

/-- `ProductPlanMinQuantity` returns the plan's product's minQuantity metadata value, or
nil if there is none. -/
def ProductPlanMinQuantity (plan : stripe.Plan) : Option Int :=
  match Atoi (mapIndex plan.Product.Metadata "minQuantity") with
  | some v => some (toInt32 v)
  | none => none

/-- The loop of `ToProductPlan` over `plan.Tiers`, appending one `planTier` per tier. -/
def appendTiers (tiers : List planTier) (raw : List stripe.PlanTier) : List planTier :=
  raw.foldl (fun acc tier => acc ++ [{ unitAmount := tier.UnitAmount, upTo := tier.UpTo }]) tiers

/-- `ToProductPlan` returns a resolver for the GraphQL type ProductPlan from the given
billing plan. -/
def ToProductPlan (isPrintTable : Char → Bool) (plan : stripe.Plan) :
    Except String productPlan :=
  if plan.Product.Name = "" then
    .error ("unexpected empty product name for plan " ++ Quote isPrintTable plan.ID)
  else if plan.Currency ≠ stripe.CurrencyUSD then
    .error ("unexpected currency " ++ Quote isPrintTable plan.Currency ++ " for plan "
      ++ Quote isPrintTable plan.ID)
  else if plan.Interval ≠ stripe.PlanIntervalYear then
    .error ("unexpected plan interval " ++ Quote isPrintTable plan.Interval ++ " for plan "
      ++ Quote isPrintTable plan.ID)
  else if plan.IntervalCount ≠ 1 then
    .error ("unexpected plan interval count " ++ formatDecimal plan.IntervalCount
      ++ " for plan " ++ Quote isPrintTable plan.ID)
  else
    .ok
      { productPlanID := plan.Product.ID
        billingPlanID := plan.ID
        name := plan.Product.Name
        pricePerUserPerYear := toInt32 plan.Amount
        minQuantity := ProductPlanMinQuantity plan
        planTiers := appendTiers [] plan.Tiers
        tiersMode := plan.TiersMode }

/-! ## `ProductPlans` -/

/-- The inner loop of the insertion sort of `sort.Slice`: the new element `x` stands right
of the part already handled and is swapped with its left neighbour as long as it is `less`
than it. `rev` is that part in reverse order (nearest neighbour first). -/
def insertLeft {α : Type} (less : α → α → Bool) (x : α) : List α → List α
  | [] => [x]
  | y :: rev => if less x y then y :: insertLeft less x rev else x :: y :: rev

/-- Model of `sort.Slice`: the library's insertion sort, which is the algorithm it runs on
a slice of fewer than 12 elements. On a longer slice the library runs a quicksort variant,
whose result is sorted by `less` as well and can differ from this one only in the order of
elements neither of which is `less` than the other (`sort.Slice` is not stable). -/
def sortSlice {α : Type} (less : α → α → Bool) (xs : List α) : List α :=
  (xs.foldl (fun rev x => insertLeft less x rev) []).reverse

/-- The plan iterator `plan.Iter` returned by `plan.List`: the plans `Next` yields, in the
provider's order, and the error `Err` reports once `Next` has returned false. -/
structure PlanIter where
  plans : List stripe.Plan
  err : Option String
deriving DecidableEq

/-- The loop `for plans.Next()` of `ProductPlans`: each plan goes through `ToProductPlan`
and is appended to `gqlPlans`; the first error ends the loop and is returned. -/
def collectPlans (isPrintTable : Char → Bool) :
    List productPlan → List stripe.Plan → Except String (List productPlan)
  | gqlPlans, [] => .ok gqlPlans
  | gqlPlans, plan :: rest =>
    match ToProductPlan isPrintTable plan with
    | .error err => .error err
    | .ok gqlPlan => collectPlans isPrintTable (gqlPlans ++ [gqlPlan]) rest

/-- `ProductPlans` implements the GraphQL field Query.dotcom.productPlans, on the iterator
the listing of the active plans returned. -/
def ProductPlans (isPrintTable : Char → Bool) (plans : PlanIter) :
    Except String (List productPlan) :=
  match collectPlans isPrintTable [] plans.plans with
  | .error err => .error err
  | .ok gqlPlans =>
    match plans.err with
    | some err => .error err
    | none =>
      -- Sort cheapest first (a reasonable assumption).
      .ok (sortSlice (fun a b => decide (a.PricePerUserPerYear < b.PricePerUserPerYear))
        gqlPlans)

/-! ## Sample inputs -/

/-- A table for `strconv.IsPrint` that holds no rune above `0xFF` printable. -/
def noWideTable : Char → Bool := fun _ => false

/-- A well-formed plan of the product "Team", with the given identifier, currency, amount
and product metadata. -/
def samplePlan (id currency : String) (amount : Int) (metadata : List (String × String)) :
    stripe.Plan :=
  { ID := id
    Product := { ID := "prod_team", Name := "Team", Metadata := metadata }
    Currency := currency
    Interval := "year"
    IntervalCount := 1
    Amount := amount
    TiersMode := "graduated"
    Tiers := [{ UnitAmount := 5000, UpTo := 25 }, { UnitAmount := 4000, UpTo := 0 }] }

/-- The listing of three valid plans with the prices 2900, 1900 and 4900. -/
def sampleListing : PlanIter :=
  { plans := [samplePlan "plan_a" "usd" 2900 [], samplePlan "plan_b" "usd" 1900 [],
      samplePlan "plan_c" "usd" 4900 []]
    err := none }

/-- The listing of three plans the second of which is in euros. -/
def sampleListingEUR : PlanIter :=
  { plans := [samplePlan "plan_a" "usd" 2900 [], samplePlan "plan_b" "eur" 1900 [],
      samplePlan "plan_c" "usd" 4900 []]
    err := none }

/-! ## Predicates of the statements -/

/-- The four validations of `ToProductPlan`, all passed. -/
def validPlan (plan : stripe.Plan) : Prop :=
  plan.Product.Name ≠ "" ∧ plan.Currency = "usd" ∧ plan.Interval = "year" ∧
    plan.IntervalCount = 1

instance (plan : stripe.Plan) : Decidable (validPlan plan) := by
  unfold validPlan; infer_instance

/-- The plan `ToProductPlan` builds once the validations have passed. -/
def builtPlan (plan : stripe.Plan) : productPlan :=
  { productPlanID := plan.Product.ID
    billingPlanID := plan.ID
    name := plan.Product.Name
    pricePerUserPerYear := toInt32 plan.Amount
    minQuantity := ProductPlanMinQuantity plan
    planTiers := appendTiers [] plan.Tiers
    tiersMode := plan.TiersMode }

/-- A decimal digit, `0` to `9`. -/
def isDecimalDigit (c : Char) : Bool := decide ('0'.toNat ≤ c.toNat ∧ c.toNat ≤ '9'.toNat)

/-- A decimal integer in the words of the specification: an optional sign, `+` or `-`,
followed by at least one decimal digit. -/
def isDecimalInteger (s : String) : Bool :=
  match s.data with
  | [] => false
  | c :: rest =>
    if c = '+' ∨ c = '-' then !rest.isEmpty && rest.all isDecimalDigit
    else (c :: rest).all isDecimalDigit

/-- A string that `strconv.Quote` leaves as it is between the quotes: each of its characters
is printable and is neither the double quote nor the backslash. -/
def plainString (isPrintTable : Char → Bool) (s : String) : Prop :=
  ∀ c ∈ s.data, c ≠ quoteChar ∧ c ≠ backslashChar ∧ IsPrint isPrintTable c = true

instance (isPrintTable : Char → Bool) (s : String) : Decidable (plainString isPrintTable s) := by
  unfold plainString; infer_instance

/-- A plan with the given product name, currency, interval and interval count. -/
def sampleRawPlan (name currency interval : String) (count : Int) : stripe.Plan :=
  { ID := "plan_x"
    Product := { ID := "prod_x", Name := name, Metadata := [] }
    Currency := currency
    Interval := interval
    IntervalCount := count
    Amount := 100
    TiersMode := ""
    Tiers := [] }

/-- The listing of three valid plans whose iterator ends with a transport error. -/
def sampleListingFailed : PlanIter :=
  { plans := sampleListing.plans, err := some "connection reset by peer" }

/-- A valid plan whose second tier has a unit amount beyond the signed 32-bit range. -/
def sampleWidePlan : stripe.Plan :=
  { samplePlan "plan_w" "usd" 2900 [] with
    Tiers := [{ UnitAmount := 5000, UpTo := 25 }, { UnitAmount := 5000000000, UpTo := 0 }] }

/-! ## Lemmas on `ToProductPlan` -/

theorem ToProductPlan_of_valid (isPrintTable : Char → Bool) (plan : stripe.Plan)
    (h : validPlan plan) : ToProductPlan isPrintTable plan = .ok (builtPlan plan) := by
  obtain ⟨h1, h2, h3, h4⟩ := h
  simp [ToProductPlan, builtPlan, h1, h2, h3, h4, stripe.CurrencyUSD, stripe.PlanIntervalYear]

theorem ToProductPlan_error_of_invalid (isPrintTable : Char → Bool) (plan : stripe.Plan)
    (h : ¬ validPlan plan) : ∃ err, ToProductPlan isPrintTable plan = .error err := by
  unfold ToProductPlan
  by_cases h1 : plan.Product.Name = ""
  · exact ⟨_, if_pos h1⟩
  · rw [if_neg h1]
    by_cases h2 : plan.Currency ≠ stripe.CurrencyUSD
    · exact ⟨_, if_pos h2⟩
    · rw [if_neg h2]
      by_cases h3 : plan.Interval ≠ stripe.PlanIntervalYear
      · exact ⟨_, if_pos h3⟩
      · rw [if_neg h3]
        by_cases h4 : plan.IntervalCount ≠ 1
        · exact ⟨_, if_pos h4⟩
        · exact absurd ⟨h1, not_not.mp h2, not_not.mp h3, not_not.mp h4⟩ h

theorem ToProductPlan_ok_inv (isPrintTable : Char → Bool) (plan : stripe.Plan)
    (gqlPlan : productPlan) (h : ToProductPlan isPrintTable plan = .ok gqlPlan) :
    validPlan plan ∧ gqlPlan = builtPlan plan := by
  by_cases hv : validPlan plan
  · rw [ToProductPlan_of_valid isPrintTable plan hv] at h
    exact ⟨hv, (Except.ok.inj h).symm⟩
  · obtain ⟨err, he⟩ := ToProductPlan_error_of_invalid isPrintTable plan hv
    rw [he] at h
    cases h

/-- C1: `ToProductPlan` returns an error (and no plan) exactly when the product name is
empty, or the currency is not "usd", or the interval is not "year", or the interval count is
not 1; in every other case it returns a plan (and no error), whatever the amount, the
tiers, the tiers mode and the metadata are. -/
theorem ToProductPlan_error_iff (isPrintTable : Char → Bool) (plan : stripe.Plan) :
    ((∃ err, ToProductPlan isPrintTable plan = .error err) ↔
      (plan.Product.Name = "" ∨ plan.Currency ≠ "usd" ∨ plan.Interval ≠ "year" ∨
        plan.IntervalCount ≠ 1)) ∧
    ((∃ gqlPlan, ToProductPlan isPrintTable plan = .ok gqlPlan) ↔
      ¬ (plan.Product.Name = "" ∨ plan.Currency ≠ "usd" ∨ plan.Interval ≠ "year" ∨
        plan.IntervalCount ≠ 1)) := by
  have hv : validPlan plan ↔ ¬ (plan.Product.Name = "" ∨ plan.Currency ≠ "usd" ∨
      plan.Interval ≠ "year" ∨ plan.IntervalCount ≠ 1) := by
    unfold validPlan; tauto
  constructor
  · constructor
    · rintro ⟨err, he⟩
      by_contra hn
      rw [ToProductPlan_of_valid isPrintTable plan (hv.mpr hn)] at he
      cases he
    · intro h
      exact ToProductPlan_error_of_invalid isPrintTable plan (fun h2 => hv.mp h2 h)
  · constructor
    · rintro ⟨gqlPlan, hg⟩
      exact hv.mp (ToProductPlan_ok_inv isPrintTable plan gqlPlan hg).1
    · intro h
      exact ⟨_, ToProductPlan_of_valid isPrintTable plan (hv.mpr h)⟩

/-! ## Lemmas on the loop of `ProductPlans` and on `sortSlice` -/

theorem collectPlans_of_ok (isPrintTable : Char → Bool) (plans : List stripe.Plan) :
    ∀ gqlPlans : List productPlan,
      (∀ p ∈ plans, ∃ g, ToProductPlan isPrintTable p = .ok g) →
      collectPlans isPrintTable gqlPlans plans = .ok (gqlPlans ++ plans.map builtPlan) := by
  induction plans with
  | nil => intro gqlPlans _; simp [collectPlans]
  | cons p rest ih =>
    intro gqlPlans hall
    obtain ⟨g, hg⟩ := hall p (List.mem_cons_self p rest)
    have hb := (ToProductPlan_ok_inv isPrintTable p g hg).2
    rw [collectPlans, hg]
    simp only []
    rw [ih (gqlPlans ++ [g]) (fun q hq => hall q (List.mem_cons_of_mem p hq)), hb]
    simp

theorem collectPlans_first_error (isPrintTable : Char → Bool) (front : List stripe.Plan)
    (bad : stripe.Plan) (back : List stripe.Plan) (err : String)
    (hbad : ToProductPlan isPrintTable bad = .error err) :
    ∀ gqlPlans : List productPlan,
      (∀ p ∈ front, ∃ g, ToProductPlan isPrintTable p = .ok g) →
      collectPlans isPrintTable gqlPlans (front ++ bad :: back) = .error err := by
  induction front with
  | nil => intro gqlPlans _; simp [collectPlans, hbad]
  | cons p rest ih =>
    intro gqlPlans hall
    obtain ⟨g, hg⟩ := hall p (List.mem_cons_self p rest)
    rw [List.cons_append, collectPlans, hg]
    exact ih (gqlPlans ++ [g]) (fun q hq => hall q (List.mem_cons_of_mem p hq))

/-- A list in which some plan fails splits at the first failing plan. -/
theorem exists_first_error (isPrintTable : Char → Bool) (plans : List stripe.Plan)
    (h : ∃ p ∈ plans, ∃ err, ToProductPlan isPrintTable p = .error err) :
    ∃ front bad back err, plans = front ++ bad :: back ∧
      (∀ p ∈ front, ∃ g, ToProductPlan isPrintTable p = .ok g) ∧
      ToProductPlan isPrintTable bad = .error err := by
  induction plans with
  | nil => obtain ⟨p, hp, _⟩ := h; cases hp
  | cons q rest ih =>
    cases hq : ToProductPlan isPrintTable q with
    | error e => exact ⟨[], q, rest, e, rfl, by simp, hq⟩
    | ok g =>
      obtain ⟨p, hp, e, he⟩ := h
      rcases List.mem_cons.mp hp with hpq | hpr
      · rw [hpq, hq] at he; cases he
      · obtain ⟨front, bad, back, err, hsplit, hfront, hbad⟩ := ih ⟨p, hpr, e, he⟩
        refine ⟨q :: front, bad, back, err, by rw [hsplit]; rfl, ?_, hbad⟩
        intro r hr
        rcases List.mem_cons.mp hr with hrq | hrf
        · exact ⟨g, by rw [hrq]; exact hq⟩
        · exact hfront r hrf

theorem insertLeft_perm {α : Type} (less : α → α → Bool) (x : α) (rev : List α) :
    (insertLeft less x rev).Perm (x :: rev) := by
  induction rev with
  | nil => exact List.Perm.refl _
  | cons y rest ih =>
    unfold insertLeft
    split
    · exact ((List.Perm.cons y ih).trans (List.Perm.swap x y rest))
    · exact List.Perm.refl _

theorem foldl_insertLeft_perm {α : Type} (less : α → α → Bool) (xs : List α) :
    ∀ rev : List α, (xs.foldl (fun rev x => insertLeft less x rev) rev).Perm (xs ++ rev) := by
  induction xs with
  | nil => intro rev; exact List.Perm.refl _
  | cons x rest ih =>
    intro rev
    rw [List.foldl_cons]
    refine (ih (insertLeft less x rev)).trans ?_
    refine (List.Perm.append_left rest (insertLeft_perm less x rev)).trans ?_
    exact List.perm_middle

theorem sortSlice_perm {α : Type} (less : α → α → Bool) (xs : List α) :
    (sortSlice less xs).Perm xs := by
  unfold sortSlice
  refine (List.reverse_perm _).trans ?_
  simpa using foldl_insertLeft_perm less xs []

theorem insertLeft_descending {α : Type} (key : α → Int) (x : α) (rev : List α)
    (h : rev.Pairwise (fun a b => key b ≤ key a)) :
    (insertLeft (fun a b => decide (key a < key b)) x rev).Pairwise
      (fun a b => key b ≤ key a) := by
  induction rev with
  | nil => simp [insertLeft]
  | cons y rest ih =>
    rw [List.pairwise_cons] at h
    unfold insertLeft
    by_cases hxy : key x < key y
    · simp only [hxy, decide_True, if_true]
      rw [List.pairwise_cons]
      refine ⟨?_, ih h.2⟩
      intro a ha
      have hmem := (insertLeft_perm (fun a b => decide (key a < key b)) x rest).mem_iff.mp ha
      rcases List.mem_cons.mp hmem with hax | har
      · rw [hax]; exact le_of_lt hxy
      · exact h.1 a har
    · simp only [hxy, decide_False, Bool.false_eq_true, if_false]
      rw [List.pairwise_cons, List.pairwise_cons]
      refine ⟨?_, h⟩
      intro a ha
      rcases List.mem_cons.mp ha with hay | har
      · rw [hay]; exact not_lt.mp hxy
      · exact le_trans (h.1 a har) (not_lt.mp hxy)

theorem foldl_insertLeft_descending {α : Type} (key : α → Int) (xs : List α) :
    ∀ rev : List α, rev.Pairwise (fun a b => key b ≤ key a) →
      (xs.foldl (fun rev x => insertLeft (fun a b => decide (key a < key b)) x rev)
        rev).Pairwise (fun a b => key b ≤ key a) := by
  induction xs with
  | nil => intro rev h; exact h
  | cons x rest ih =>
    intro rev h
    rw [List.foldl_cons]
    exact ih _ (insertLeft_descending key x rev h)

theorem sortSlice_sorted {α : Type} (key : α → Int) (xs : List α) :
    (sortSlice (fun a b => decide (key a < key b)) xs).Pairwise
      (fun a b => key a ≤ key b) := by
  unfold sortSlice
  rw [List.pairwise_reverse]
  exact foldl_insertLeft_descending key xs [] List.Pairwise.nil

theorem ProductPlans_of_ok (isPrintTable : Char → Bool) (plans : PlanIter)
    (hall : ∀ p ∈ plans.plans, ∃ g, ToProductPlan isPrintTable p = .ok g)
    (herr : plans.err = none) :
    ProductPlans isPrintTable plans =
      .ok (sortSlice (fun a b => decide (a.PricePerUserPerYear < b.PricePerUserPerYear))
        (plans.plans.map builtPlan)) := by
  unfold ProductPlans
  rw [collectPlans_of_ok isPrintTable plans.plans [] hall, herr]
  simp

/-! ## The claims on `ProductPlans` -/

/-- C2: when at least one plan of the listing fails `ToProductPlan`, `ProductPlans` returns
no list of plans but exactly the error `ToProductPlan` gives for the first failing plan in
the provider's order, whatever valid plans precede it, whatever plans follow it and
whatever the iterator's final error is. -/
theorem ProductPlans_first_mapping_error (isPrintTable : Char → Bool) (plans : PlanIter)
    (h : ∃ p ∈ plans.plans, ∃ err, ToProductPlan isPrintTable p = .error err) :
    ∃ front bad back err, plans.plans = front ++ bad :: back ∧
      (∀ p ∈ front, ∃ g, ToProductPlan isPrintTable p = .ok g) ∧
      ToProductPlan isPrintTable bad = .error err ∧
      ProductPlans isPrintTable plans = .error err := by
  obtain ⟨front, bad, back, err, hsplit, hfront, hbad⟩ :=
    exists_first_error isPrintTable plans.plans h
  refine ⟨front, bad, back, err, hsplit, hfront, hbad, ?_⟩
  unfold ProductPlans
  rw [hsplit, collectPlans_first_error isPrintTable front bad back err hbad [] hfront]

theorem ProductPlans_first_mapping_error_witness :
    (∃ p ∈ sampleListingEUR.plans, ∃ err, ToProductPlan noWideTable p = .error err) ∧
    ProductPlans noWideTable sampleListingEUR =
      .error "unexpected currency \"eur\" for plan \"plan_b\"" ∧
    ∃ front bad back err, sampleListingEUR.plans = front ++ bad :: back ∧
      (∀ p ∈ front, ∃ g, ToProductPlan noWideTable p = .ok g) ∧
      ToProductPlan noWideTable bad = .error err ∧
      ProductPlans noWideTable sampleListingEUR = .error err :=
  have h : ∃ p ∈ sampleListingEUR.plans, ∃ err, ToProductPlan noWideTable p = .error err :=
    ⟨samplePlan "plan_b" "eur" 1900 [], by simp [sampleListingEUR],
      ToProductPlan_error_of_invalid noWideTable _ (by decide)⟩
  ⟨h, rfl, ProductPlans_first_mapping_error noWideTable sampleListingEUR h⟩

/-- C3: when every plan of the listing maps successfully and the iterator reports no error,
`ProductPlans` returns a list sorted by ascending price per user per year: of two adjacent
plans of the result, the earlier one's `PricePerUserPerYear()` is at most the later one's. -/
theorem ProductPlans_sorted (isPrintTable : Char → Bool) (plans : PlanIter)
    (hall : ∀ p ∈ plans.plans, ∃ g, ToProductPlan isPrintTable p = .ok g)
    (herr : plans.err = none) :
    ∃ gqlPlans, ProductPlans isPrintTable plans = .ok gqlPlans ∧
      ∀ (i : Nat) (h : i + 1 < gqlPlans.length),
        (gqlPlans[i]).PricePerUserPerYear ≤ (gqlPlans[i + 1]).PricePerUserPerYear := by
  refine ⟨_, ProductPlans_of_ok isPrintTable plans hall herr, ?_⟩
  intro i h
  have hs := sortSlice_sorted productPlan.PricePerUserPerYear (plans.plans.map builtPlan)
  exact (List.pairwise_iff_getElem.mp hs) i (i + 1) (by omega) h (by omega)

theorem ProductPlans_sorted_witness :
    ((∀ p ∈ sampleListing.plans, ∃ g, ToProductPlan noWideTable p = .ok g) ∧
      sampleListing.err = none) ∧
    (sampleListing.plans.map (fun p => p.Amount) = [2900, 1900, 4900]) ∧
    (∃ gqlPlans, ProductPlans noWideTable sampleListing = .ok gqlPlans ∧
      gqlPlans.map (fun g => g.PricePerUserPerYear) = [1900, 2900, 4900]) ∧
    ∃ gqlPlans, ProductPlans noWideTable sampleListing = .ok gqlPlans ∧
      ∀ (i : Nat) (h : i + 1 < gqlPlans.length),
        (gqlPlans[i]).PricePerUserPerYear ≤ (gqlPlans[i + 1]).PricePerUserPerYear :=
  have hall : ∀ p ∈ sampleListing.plans, ∃ g, ToProductPlan noWideTable p = .ok g := by
    intro p hp
    refine ⟨_, ToProductPlan_of_valid noWideTable p ?_⟩
    simp only [sampleListing, List.mem_cons, List.mem_singleton, List.not_mem_nil,
      or_false] at hp
    rcases hp with hp | hp | hp <;> rw [hp] <;> decide
  ⟨⟨hall, rfl⟩, rfl, ⟨_, rfl, rfl⟩, ProductPlans_sorted noWideTable sampleListing hall rfl⟩

/-- C4: when every plan of the listing maps successfully and the iterator reports no error,
the list `ProductPlans` returns is a permutation of the plans `ToProductPlan` gives for the
plans of the listing in the provider's order: it is as long as the listing, and the sort
drops, duplicates or alters no plan. -/
theorem ProductPlans_perm (isPrintTable : Char → Bool) (plans : PlanIter)
    (hall : ∀ p ∈ plans.plans, ∃ g, ToProductPlan isPrintTable p = .ok g)
    (herr : plans.err = none) :
    ∃ gqlPlans mapped, ProductPlans isPrintTable plans = .ok gqlPlans ∧
      plans.plans.map (ToProductPlan isPrintTable) = mapped.map Except.ok ∧
      gqlPlans.Perm mapped ∧ gqlPlans.length = plans.plans.length := by
  refine ⟨_, plans.plans.map builtPlan, ProductPlans_of_ok isPrintTable plans hall herr,
    ?_, sortSlice_perm _ _, ?_⟩
  · rw [List.map_map]
    apply List.map_congr_left
    intro p hp
    obtain ⟨g, hg⟩ := hall p hp
    rw [ToProductPlan_of_valid isPrintTable p (ToProductPlan_ok_inv isPrintTable p g hg).1]
    rfl
  · rw [(sortSlice_perm _ _).length_eq, List.length_map]

theorem ProductPlans_perm_witness :
    ((∀ p ∈ sampleListing.plans, ∃ g, ToProductPlan noWideTable p = .ok g) ∧
      sampleListing.err = none) ∧
    ∃ gqlPlans mapped, ProductPlans noWideTable sampleListing = .ok gqlPlans ∧
      sampleListing.plans.map (ToProductPlan noWideTable) = mapped.map Except.ok ∧
      gqlPlans.Perm mapped ∧ gqlPlans.length = sampleListing.plans.length :=
  have hall : ∀ p ∈ sampleListing.plans, ∃ g, ToProductPlan noWideTable p = .ok g := by
    intro p hp
    refine ⟨_, ToProductPlan_of_valid noWideTable p ?_⟩
    simp only [sampleListing, List.mem_cons, List.mem_singleton, List.not_mem_nil,
      or_false] at hp
    rcases hp with hp | hp | hp <;> rw [hp] <;> decide
  ⟨⟨hall, rfl⟩, ProductPlans_perm noWideTable sampleListing hall rfl⟩

/-! ## The error messages of `ToProductPlan` -/

theorem flatMap_eq_self_of_singleton {α : Type} (f : α → List α) (l : List α)
    (h : ∀ c ∈ l, f c = [c]) : l.flatMap f = l := by
  induction l with
  | nil => rfl
  | cons c rest ih =>
    rw [List.flatMap_cons, h c (List.mem_cons_self c rest),
      ih (fun d hd => h d (List.mem_cons_of_mem c hd))]
    rfl

theorem escapedRune_of_print (isPrintTable : Char → Bool) (c : Char)
    (h : c ≠ quoteChar ∧ c ≠ backslashChar ∧ IsPrint isPrintTable c = true) :
    escapedRune isPrintTable c = [c] := by
  simp [escapedRune, h.1, h.2.1, h.2.2]

/-- The message of every error of `ToProductPlan` ends with the quoted plan identifier. -/
theorem ToProductPlan_error_form (isPrintTable : Char → Bool) (plan : stripe.Plan)
    (err : String) (h : ToProductPlan isPrintTable plan = .error err) :
    ∃ front : String, err = front ++ Quote isPrintTable plan.ID := by
  unfold ToProductPlan at h
  split at h
  · exact ⟨_, (Except.error.inj h).symm⟩
  · split at h
    · exact ⟨_, (Except.error.inj h).symm⟩
    · split at h
      · exact ⟨_, (Except.error.inj h).symm⟩
      · split at h
        · exact ⟨_, (Except.error.inj h).symm⟩
        · cases h

/-- C5 (amended): the message of every error of `ToProductPlan` contains the plan's
identifier as the verb `%q` prints it (`strconv.Quote`); it contains the identifier itself
whenever each of its characters is printable and is neither the double quote nor the
backslash. -/
theorem ToProductPlan_error_contains_id (isPrintTable : Char → Bool) (plan : stripe.Plan)
    (err : String) (h : ToProductPlan isPrintTable plan = .error err) :
    (Quote isPrintTable plan.ID).data <:+: err.data ∧
    ((∀ c ∈ plan.ID.data, c ≠ quoteChar ∧ c ≠ backslashChar ∧ IsPrint isPrintTable c = true) →
      plan.ID.data <:+: err.data) := by
  obtain ⟨front, hfront⟩ := ToProductPlan_error_form isPrintTable plan err h
  have hq : (Quote isPrintTable plan.ID).data <:+: err.data := by
    rw [hfront, String.data_append]
    exact (List.suffix_append _ _).isInfix
  refine ⟨hq, ?_⟩
  intro hprint
  refine List.IsInfix.trans ?_ hq
  unfold Quote
  rw [flatMap_eq_self_of_singleton _ _
    (fun c hc => escapedRune_of_print isPrintTable c (hprint c hc))]
  exact ⟨[quoteChar], [quoteChar], by simp⟩

theorem ToProductPlan_error_contains_id_witness :
    ToProductPlan noWideTable (samplePlan "plan_b" "eur" 1900 []) =
      .error "unexpected currency \"eur\" for plan \"plan_b\"" ∧
    "\"plan_b\"".data <:+: "unexpected currency \"eur\" for plan \"plan_b\"".data ∧
    "plan_b".data <:+: "unexpected currency \"eur\" for plan \"plan_b\"".data :=
  ⟨rfl,
    (ToProductPlan_error_contains_id noWideTable (samplePlan "plan_b" "eur" 1900 []) _ rfl).1,
    (ToProductPlan_error_contains_id noWideTable (samplePlan "plan_b" "eur" 1900 []) _ rfl).2
      (by decide)⟩

/-- C5 (as stated) fails: for the plan identifier `a"b` the message holds `a\"b`, in which
the identifier does not occur. -/
theorem ToProductPlan_error_omits_raw_id :
    (∀ isPrintTable, ToProductPlan isPrintTable (samplePlan "a\"b" "eur" 1900 []) =
      .error "unexpected currency \"eur\" for plan \"a\\\"b\"") ∧
    ¬ ("a\"b".data <:+: "unexpected currency \"eur\" for plan \"a\\\"b\"".data) :=
  ⟨fun _ => rfl, by decide⟩

/-! ## The price per user per year -/

theorem toInt32_range (v : Int) : -2 ^ 31 ≤ toInt32 v ∧ toInt32 v ≤ 2 ^ 31 - 1 := by
  unfold toInt32
  omega

theorem toInt32_of_range (v : Int) (h : -2 ^ 31 ≤ v ∧ v ≤ 2 ^ 31 - 1) : toInt32 v = v := by
  unfold toInt32
  omega

theorem toInt32_emod (v : Int) : toInt32 v % 2 ^ 32 = v % 2 ^ 32 := by
  unfold toInt32
  omega

theorem toInt32_nonneg_iff (v : Int) : 0 ≤ toInt32 v ↔ v % 2 ^ 32 < 2 ^ 31 := by
  unfold toInt32
  omega

/-- C6 (amended): the price per user per year of a plan `ToProductPlan` returns lies in the
signed 32-bit range; it is non-negative exactly when the raw amount modulo 2^32 is below
2^31, hence for every raw amount from 0 to 2^31 - 1, which it then equals. -/
theorem ToProductPlan_price_nonneg_iff (isPrintTable : Char → Bool) (plan : stripe.Plan)
    (gqlPlan : productPlan) (h : ToProductPlan isPrintTable plan = .ok gqlPlan) :
    (-2 ^ 31 ≤ gqlPlan.PricePerUserPerYear ∧ gqlPlan.PricePerUserPerYear ≤ 2 ^ 31 - 1) ∧
    (0 ≤ gqlPlan.PricePerUserPerYear ↔ plan.Amount % 2 ^ 32 < 2 ^ 31) ∧
    (0 ≤ plan.Amount ∧ plan.Amount ≤ 2 ^ 31 - 1 →
      0 ≤ gqlPlan.PricePerUserPerYear ∧ gqlPlan.PricePerUserPerYear = plan.Amount) := by
  have hg := (ToProductPlan_ok_inv isPrintTable plan gqlPlan h).2
  have hp : gqlPlan.PricePerUserPerYear = toInt32 plan.Amount := by rw [hg]; rfl
  rw [hp]
  refine ⟨toInt32_range _, toInt32_nonneg_iff _, ?_⟩
  intro hr
  rw [toInt32_of_range plan.Amount ⟨by omega, hr.2⟩]
  exact ⟨hr.1, rfl⟩

theorem ToProductPlan_price_nonneg_iff_witness :
    ToProductPlan noWideTable (samplePlan "plan_a" "usd" 2900 []) =
      .ok (builtPlan (samplePlan "plan_a" "usd" 2900 [])) ∧
    (builtPlan (samplePlan "plan_a" "usd" 2900 [])).PricePerUserPerYear = 2900 ∧
    0 ≤ (builtPlan (samplePlan "plan_a" "usd" 2900 [])).PricePerUserPerYear :=
  ⟨rfl,
    ((ToProductPlan_price_nonneg_iff noWideTable (samplePlan "plan_a" "usd" 2900 []) _
      rfl).2.2 (by decide)).2,
    ((ToProductPlan_price_nonneg_iff noWideTable (samplePlan "plan_a" "usd" 2900 []) _
      rfl).2.2 (by decide)).1⟩

/-- C6 (as stated) fails: a plan with the raw amount 3000000000 maps successfully to the
price -1294967296, and a plan with the raw amount -100 to the price -100. -/
theorem ToProductPlan_price_negative :
    (∀ isPrintTable, ToProductPlan isPrintTable (samplePlan "plan_a" "usd" 3000000000 []) =
      .ok (builtPlan (samplePlan "plan_a" "usd" 3000000000 []))) ∧
    (builtPlan (samplePlan "plan_a" "usd" 3000000000 [])).PricePerUserPerYear
      = -1294967296 ∧
    ¬ (0 ≤ (builtPlan (samplePlan "plan_a" "usd" 3000000000 [])).PricePerUserPerYear) ∧
    (∀ isPrintTable, ToProductPlan isPrintTable (samplePlan "plan_a" "usd" (-100) []) =
      .ok (builtPlan (samplePlan "plan_a" "usd" (-100) []))) ∧
    (builtPlan (samplePlan "plan_a" "usd" (-100) [])).PricePerUserPerYear = -100 :=
  ⟨fun _ => rfl, by decide, by decide, fun _ => rfl, by decide⟩

/-- C7: a plan that passes the four validations maps successfully, and its price per user
per year is the raw amount narrowed to a signed 32-bit integer: the raw amount itself when
that lies in [-2^31, 2^31 - 1], and in every case the value of that range congruent to the
raw amount modulo 2^32. No amount makes the mapping fail. -/
theorem ToProductPlan_price_narrowed (isPrintTable : Char → Bool) (plan : stripe.Plan)
    (hname : plan.Product.Name ≠ "") (hcurrency : plan.Currency = "usd")
    (hinterval : plan.Interval = "year") (hcount : plan.IntervalCount = 1) :
    ∃ gqlPlan, ToProductPlan isPrintTable plan = .ok gqlPlan ∧
      (-2 ^ 31 ≤ plan.Amount ∧ plan.Amount ≤ 2 ^ 31 - 1 →
        gqlPlan.PricePerUserPerYear = plan.Amount) ∧
      (-2 ^ 31 ≤ gqlPlan.PricePerUserPerYear ∧ gqlPlan.PricePerUserPerYear ≤ 2 ^ 31 - 1) ∧
      gqlPlan.PricePerUserPerYear % 2 ^ 32 = plan.Amount % 2 ^ 32 :=
  ⟨builtPlan plan,
    ToProductPlan_of_valid isPrintTable plan ⟨hname, hcurrency, hinterval, hcount⟩,
    toInt32_of_range plan.Amount, toInt32_range plan.Amount, toInt32_emod plan.Amount⟩

theorem ToProductPlan_price_narrowed_witness :
    ((samplePlan "plan_a" "usd" 3000000000 []).Product.Name ≠ "" ∧
      (samplePlan "plan_a" "usd" 3000000000 []).Currency = "usd" ∧
      (samplePlan "plan_a" "usd" 3000000000 []).Interval = "year" ∧
      (samplePlan "plan_a" "usd" 3000000000 []).IntervalCount = 1) ∧
    ∃ gqlPlan, ToProductPlan noWideTable (samplePlan "plan_a" "usd" 3000000000 []) =
        .ok gqlPlan ∧
      (-2 ^ 31 ≤ (samplePlan "plan_a" "usd" 3000000000 []).Amount ∧
          (samplePlan "plan_a" "usd" 3000000000 []).Amount ≤ 2 ^ 31 - 1 →
        gqlPlan.PricePerUserPerYear = (samplePlan "plan_a" "usd" 3000000000 []).Amount) ∧
      (-2 ^ 31 ≤ gqlPlan.PricePerUserPerYear ∧ gqlPlan.PricePerUserPerYear ≤ 2 ^ 31 - 1) ∧
      gqlPlan.PricePerUserPerYear % 2 ^ 32 =
        (samplePlan "plan_a" "usd" 3000000000 []).Amount % 2 ^ 32 :=
  ⟨by decide,
    ToProductPlan_price_narrowed noWideTable (samplePlan "plan_a" "usd" 3000000000 [])
      (by decide) rfl rfl rfl⟩

/-! ## The minimum quantity -/

theorem parseDigits_all_digits (l : List Char) :
    ∀ n m : Nat, parseDigits n l = some m → l.all isDecimalDigit = true := by
  induction l with
  | nil => intro n m _; rfl
  | cons c rest ih =>
    intro n m h
    unfold parseDigits at h
    split at h
    · rename_i hc
      rw [List.all_cons, ih _ m h]
      simpa [isDecimalDigit] using hc
    · cases h

theorem Atoi_isDecimalInteger (s : String) (v : Int) (h : Atoi s = some v) :
    isDecimalInteger s = true := by
  unfold Atoi at h
  unfold isDecimalInteger
  split at h
  · cases h
  · rename_i c rest hs
    dsimp only at h
    by_cases hsign : c = '-' ∨ c = '+'
    · rw [if_pos hsign] at h
      rw [if_pos (Or.symm hsign)]
      split at h
      · cases h
      · rename_i hne
        split at h
        · cases h
        · rename_i n hn
          simp only [Bool.and_eq_true, Bool.not_eq_true']
          exact ⟨by simpa using hne, parseDigits_all_digits rest 0 n hn⟩
    · rw [if_neg hsign] at h
      rw [if_neg (fun hc => hsign (Or.symm hc))]
      split at h
      · cases h
      · split at h
        · cases h
        · rename_i n hn
          exact parseDigits_all_digits (c :: rest) 0 n hn

/-- C8: the metadata value "4294967296" parses as the integer 4294967296, so the minimum
quantity should be present and equal to 4294967296; `ProductPlanMinQuantity` and
`MinQuantity()` of the plan `ToProductPlan` builds return 0 instead, because the parsed
value goes through `int32(v)` unchecked. -/
theorem ProductPlanMinQuantity_wraps :
    Atoi (mapIndex
      (samplePlan "plan_a" "usd" 2900 [("minQuantity", "4294967296")]).Product.Metadata
      "minQuantity") = some 4294967296 ∧
    ProductPlanMinQuantity (samplePlan "plan_a" "usd" 2900 [("minQuantity", "4294967296")])
      = some 0 ∧
    ProductPlanMinQuantity (samplePlan "plan_a" "usd" 2900 [("minQuantity", "4294967296")])
      ≠ some 4294967296 ∧
    (∀ isPrintTable,
      ToProductPlan isPrintTable (samplePlan "plan_a" "usd" 2900 [("minQuantity", "4294967296")])
        = .ok (builtPlan (samplePlan "plan_a" "usd" 2900 [("minQuantity", "4294967296")]))) ∧
    (builtPlan (samplePlan "plan_a" "usd" 2900 [("minQuantity", "4294967296")])).MinQuantity
      = some 0 :=
  ⟨by decide, by decide, by decide, fun _ => rfl, by decide⟩

/-- C9: when the metadata has no "minQuantity" key, or the value stored under it is not a
decimal integer, `ProductPlanMinQuantity` returns nil, and `ToProductPlan` still succeeds
on a plan that passes the four validations, with the minimum quantity absent. -/
theorem ProductPlanMinQuantity_absent (plan : stripe.Plan)
    (h : plan.Product.Metadata.lookup "minQuantity" = none ∨
      isDecimalInteger (mapIndex plan.Product.Metadata "minQuantity") = false) :
    ProductPlanMinQuantity plan = none ∧
    ∀ isPrintTable : Char → Bool,
      plan.Product.Name ≠ "" ∧ plan.Currency = "usd" ∧ plan.Interval = "year" ∧
        plan.IntervalCount = 1 →
      ∃ gqlPlan, ToProductPlan isPrintTable plan = .ok gqlPlan ∧
        gqlPlan.MinQuantity = none := by
  have hdec : isDecimalInteger (mapIndex plan.Product.Metadata "minQuantity") = false := by
    rcases h with h | h
    · unfold mapIndex
      rw [h]
      rfl
    · exact h
  have hq : ProductPlanMinQuantity plan = none := by
    unfold ProductPlanMinQuantity
    cases ha : Atoi (mapIndex plan.Product.Metadata "minQuantity") with
    | none => rfl
    | some v =>
      rw [Atoi_isDecimalInteger _ v ha] at hdec
      cases hdec
  refine ⟨hq, ?_⟩
  intro isPrintTable hv
  exact ⟨builtPlan plan, ToProductPlan_of_valid isPrintTable plan hv, hq⟩

theorem ProductPlanMinQuantity_absent_witness :
    isDecimalInteger (mapIndex
      (samplePlan "plan_a" "usd" 2900 [("minQuantity", "abc")]).Product.Metadata
      "minQuantity") = false ∧
    ProductPlanMinQuantity (samplePlan "plan_a" "usd" 2900 [("minQuantity", "abc")]) = none ∧
    ∃ gqlPlan,
      ToProductPlan noWideTable (samplePlan "plan_a" "usd" 2900 [("minQuantity", "abc")])
        = .ok gqlPlan ∧ gqlPlan.MinQuantity = none :=
  ⟨by decide,
    (ProductPlanMinQuantity_absent (samplePlan "plan_a" "usd" 2900 [("minQuantity", "abc")])
      (Or.inr (by decide))).1,
    (ProductPlanMinQuantity_absent (samplePlan "plan_a" "usd" 2900 [("minQuantity", "abc")])
      (Or.inr (by decide))).2 noWideTable (by decide)⟩

/-! ## The tiers -/

theorem appendTiers_eq (raw : List stripe.PlanTier) :
    ∀ tiers : List planTier,
      appendTiers tiers raw =
        tiers ++ raw.map (fun tier => { unitAmount := tier.UnitAmount, upTo := tier.UpTo }) := by
  induction raw with
  | nil => intro tiers; simp [appendTiers]
  | cons tier rest ih =>
    intro tiers
    have hstep := ih (tiers ++ [{ unitAmount := tier.UnitAmount, upTo := tier.UpTo }])
    unfold appendTiers at hstep ⊢
    rw [List.foldl_cons, hstep]
    simp

/-- C10: the tiers of a plan `ToProductPlan` returns (`PlanTiers()`) are as many as the
tiers of the raw plan, and the tier at each index holds the unit amount and the upper
bound of the raw tier at that index: the tiers are copied in order. -/
theorem ToProductPlan_tiers (isPrintTable : Char → Bool) (plan : stripe.Plan)
    (gqlPlan : productPlan) (h : ToProductPlan isPrintTable plan = .ok gqlPlan) :
    gqlPlan.PlanTiers.length = plan.Tiers.length ∧
    ∀ (i : Nat) (h1 : i < gqlPlan.PlanTiers.length) (h2 : i < plan.Tiers.length),
      ((gqlPlan.PlanTiers[i]).unitAmount, (gqlPlan.PlanTiers[i]).upTo) =
        ((plan.Tiers[i]).UnitAmount, (plan.Tiers[i]).UpTo) := by
  have hg := (ToProductPlan_ok_inv isPrintTable plan gqlPlan h).2
  have ht : gqlPlan.PlanTiers =
      plan.Tiers.map (fun tier => { unitAmount := tier.UnitAmount, upTo := tier.UpTo }) := by
    rw [hg]
    show appendTiers [] plan.Tiers = _
    rw [appendTiers_eq, List.nil_append]
  constructor
  · rw [ht, List.length_map]
  · intro i h1 h2
    simp [ht]

theorem ToProductPlan_tiers_witness :
    ToProductPlan noWideTable (samplePlan "plan_a" "usd" 2900 []) =
      .ok (builtPlan (samplePlan "plan_a" "usd" 2900 [])) ∧
    (builtPlan (samplePlan "plan_a" "usd" 2900 [])).PlanTiers =
      [{ unitAmount := 5000, upTo := 25 }, { unitAmount := 4000, upTo := 0 }] ∧
    (builtPlan (samplePlan "plan_a" "usd" 2900 [])).PlanTiers.length =
      (samplePlan "plan_a" "usd" 2900 []).Tiers.length :=
  ⟨rfl, rfl,
    (ToProductPlan_tiers noWideTable (samplePlan "plan_a" "usd" 2900 []) _ rfl).1⟩

/-! ## The copied fields -/

/-- C11: the plan `ToProductPlan` returns has the raw plan's id as `BillingPlanID()`, the
raw product's id as `ProductPlanID()`, the raw product's name as `Name()` and the raw tiers
mode as `TiersMode()`, each unchanged; the mapping succeeds just as well with any other
tiers mode, the empty string included. -/
theorem ToProductPlan_copies_fields (isPrintTable : Char → Bool) (plan : stripe.Plan)
    (gqlPlan : productPlan) (h : ToProductPlan isPrintTable plan = .ok gqlPlan) :
    (gqlPlan.BillingPlanID = plan.ID ∧ gqlPlan.ProductPlanID = plan.Product.ID ∧
      gqlPlan.Name = plan.Product.Name ∧ gqlPlan.TiersMode = plan.TiersMode) ∧
    ∀ mode : String, ∃ other,
      ToProductPlan isPrintTable { plan with TiersMode := mode } = .ok other ∧
        other.TiersMode = mode := by
  obtain ⟨hv, hg⟩ := ToProductPlan_ok_inv isPrintTable plan gqlPlan h
  constructor
  · rw [hg]
    exact ⟨rfl, rfl, rfl, rfl⟩
  · intro mode
    exact ⟨_, ToProductPlan_of_valid isPrintTable { plan with TiersMode := mode } hv, rfl⟩

theorem ToProductPlan_copies_fields_witness :
    ToProductPlan noWideTable (samplePlan "plan_a" "usd" 2900 []) =
      .ok (builtPlan (samplePlan "plan_a" "usd" 2900 [])) ∧
    ((builtPlan (samplePlan "plan_a" "usd" 2900 [])).BillingPlanID = "plan_a" ∧
      (builtPlan (samplePlan "plan_a" "usd" 2900 [])).ProductPlanID = "prod_team" ∧
      (builtPlan (samplePlan "plan_a" "usd" 2900 [])).Name = "Team" ∧
      (builtPlan (samplePlan "plan_a" "usd" 2900 [])).TiersMode = "graduated") ∧
    ∃ other,
      ToProductPlan noWideTable { samplePlan "plan_a" "usd" 2900 [] with TiersMode := "" } =
        .ok other ∧ other.TiersMode = "" :=
  ⟨rfl,
    (ToProductPlan_copies_fields noWideTable (samplePlan "plan_a" "usd" 2900 []) _ rfl).1,
    (ToProductPlan_copies_fields noWideTable (samplePlan "plan_a" "usd" 2900 []) _ rfl).2 ""⟩

/-! ## The iterator's error and the empty listing -/

/-- C12: when every plan the iterator yields maps successfully but the iterator's final
`Err` reports an error, `ProductPlans` returns no list of plans and that error
unchanged. -/
theorem ProductPlans_transport_error (isPrintTable : Char → Bool) (plans : PlanIter)
    (err : String)
    (hall : ∀ p ∈ plans.plans, ∃ g, ToProductPlan isPrintTable p = .ok g)
    (herr : plans.err = some err) :
    ProductPlans isPrintTable plans = .error err := by
  unfold ProductPlans
  rw [collectPlans_of_ok isPrintTable plans.plans [] hall, herr]

theorem ProductPlans_transport_error_witness :
    ((∀ p ∈ sampleListingFailed.plans, ∃ g, ToProductPlan noWideTable p = .ok g) ∧
      sampleListingFailed.err = some "connection reset by peer") ∧
    ProductPlans noWideTable sampleListingFailed = .error "connection reset by peer" :=
  have hall : ∀ p ∈ sampleListingFailed.plans, ∃ g, ToProductPlan noWideTable p = .ok g := by
    intro p hp
    refine ⟨_, ToProductPlan_of_valid noWideTable p ?_⟩
    simp only [sampleListingFailed, sampleListing, List.mem_cons, List.mem_singleton,
      List.not_mem_nil, or_false] at hp
    rcases hp with hp | hp | hp <;> rw [hp] <;> decide
  ⟨⟨hall, rfl⟩, ProductPlans_transport_error noWideTable sampleListingFailed _ hall rfl⟩

/-- C13: on a listing that yields no plan and reports no error, `ProductPlans` returns the
empty list of plans (length 0) and no error. -/
theorem ProductPlans_empty (isPrintTable : Char → Bool) :
    ProductPlans isPrintTable { plans := [], err := none } = .ok [] ∧
    ∃ gqlPlans, ProductPlans isPrintTable { plans := [], err := none } = .ok gqlPlans ∧
      gqlPlans.length = 0 :=
  ⟨rfl, [], rfl, rfl⟩

/-! ## The order of the validations -/

/-- C14: `ToProductPlan` reports the first violated validation in the order product name,
currency, interval, interval count: an empty product name gives the "empty product name"
error whatever the other fields are; a non-empty name with a currency other than "usd"
gives the "unexpected currency" error whatever the interval and the count are; a non-empty
name and the currency "usd" with an interval other than "year" give the "unexpected plan
interval" error whatever the count is. -/
theorem ToProductPlan_first_violation (isPrintTable : Char → Bool) (plan : stripe.Plan) :
    (plan.Product.Name = "" →
      ToProductPlan isPrintTable plan =
        .error ("unexpected empty product name for plan " ++ Quote isPrintTable plan.ID)) ∧
    (plan.Product.Name ≠ "" → plan.Currency ≠ "usd" →
      ToProductPlan isPrintTable plan =
        .error ("unexpected currency " ++ Quote isPrintTable plan.Currency ++ " for plan "
          ++ Quote isPrintTable plan.ID)) ∧
    (plan.Product.Name ≠ "" → plan.Currency = "usd" → plan.Interval ≠ "year" →
      ToProductPlan isPrintTable plan =
        .error ("unexpected plan interval " ++ Quote isPrintTable plan.Interval
          ++ " for plan " ++ Quote isPrintTable plan.ID)) := by
  refine ⟨?_, ?_, ?_⟩
  · intro h1
    simp [ToProductPlan, h1]
  · intro h1 h2
    simp [ToProductPlan, h1, h2, stripe.CurrencyUSD]
  · intro h1 h2 h3
    simp [ToProductPlan, h1, h2, h3, stripe.CurrencyUSD, stripe.PlanIntervalYear]

theorem ToProductPlan_first_violation_witness :
    ToProductPlan noWideTable (sampleRawPlan "" "eur" "month" 2) =
      .error "unexpected empty product name for plan \"plan_x\"" ∧
    ToProductPlan noWideTable (sampleRawPlan "Team" "eur" "month" 2) =
      .error "unexpected currency \"eur\" for plan \"plan_x\"" ∧
    ToProductPlan noWideTable (sampleRawPlan "Team" "usd" "month" 2) =
      .error "unexpected plan interval \"month\" for plan \"plan_x\"" :=
  ⟨(ToProductPlan_first_violation noWideTable (sampleRawPlan "" "eur" "month" 2)).1 rfl,
    (ToProductPlan_first_violation noWideTable (sampleRawPlan "Team" "eur" "month" 2)).2.1
      (by decide) (by decide),
    (ToProductPlan_first_violation noWideTable (sampleRawPlan "Team" "usd" "month" 2)).2.2
      (by decide) rfl (by decide)⟩

/-! ## The round trip of the minimum quantity -/

theorem digitChar_toNat (m : Nat) (h : m < 10) : (Nat.digitChar m).toNat = 48 + m := by
  interval_cases m <;> rfl

theorem parseDigits_append (l1 l2 : List Char) :
    ∀ a : Nat, parseDigits a (l1 ++ l2) = (parseDigits a l1).bind (fun m => parseDigits m l2) := by
  induction l1 with
  | nil => intro a; rfl
  | cons c rest ih =>
    intro a
    by_cases hc : 48 ≤ c.toNat ∧ c.toNat ≤ 57
    · simp only [List.cons_append, parseDigits, hc, and_self, if_true]
      exact ih _
    · simp only [List.cons_append, parseDigits, hc, if_false]
      rfl

theorem parseDigits_digitChar (a m : Nat) (h : m < 10) :
    parseDigits a [Nat.digitChar m] = some (a * 10 + m) := by
  unfold parseDigits
  rw [digitChar_toNat m h, if_pos ⟨by omega, by omega⟩]
  unfold parseDigits
  congr 1
  omega

theorem toDigitsCore_parse (fuel : Nat) :
    ∀ (n : Nat) (ds : List Char), n < fuel →
      ∃ l, Nat.toDigitsCore 10 fuel n ds = l ++ ds ∧ l ≠ [] ∧
        ∀ a, parseDigits a l = some (a * 10 ^ l.length + n) := by
  induction fuel with
  | zero => intro n ds h; omega
  | succ fuel ih =>
    intro n ds h
    unfold Nat.toDigitsCore
    by_cases hq : n / 10 = 0
    · refine ⟨[Nat.digitChar (n % 10)], by simp [hq], by simp, ?_⟩
      intro a
      rw [parseDigits_digitChar a (n % 10) (Nat.mod_lt n (by omega))]
      congr 1
      simp
      omega
    · obtain ⟨l, hl, hne, hparse⟩ := ih (n / 10) (Nat.digitChar (n % 10) :: ds) (by omega)
      refine ⟨l ++ [Nat.digitChar (n % 10)], by simp [hq, hl], by simp, ?_⟩
      intro a
      rw [parseDigits_append, hparse a]
      show parseDigits _ [Nat.digitChar (n % 10)] = _
      rw [parseDigits_digitChar _ (n % 10) (Nat.mod_lt n (by omega))]
      congr 1
      rw [List.length_append, List.length_singleton, pow_succ]
      have := Nat.div_add_mod n 10
      nlinarith [Nat.div_add_mod n 10]


theorem parseDigits_toDigits (n : Nat) :
    Nat.toDigits 10 n ≠ [] ∧ parseDigits 0 (Nat.toDigits 10 n) = some n := by
  obtain ⟨l, hl, hne, hparse⟩ := toDigitsCore_parse (n + 1) n [] (by omega)
  unfold Nat.toDigits
  rw [hl, List.append_nil]
  refine ⟨hne, ?_⟩
  rw [hparse 0]
  simp

theorem Atoi_of_digits (s : String) (c : Char) (rest : List Char) (n : Nat)
    (hs : s.data = c :: rest) (hparse : parseDigits 0 (c :: rest) = some n)
    (hn : (n : Int) < 2 ^ 63) : Atoi s = some (n : Int) := by
  have hc : 48 ≤ c.toNat ∧ c.toNat ≤ 57 := by
    by_contra hc
    simp [parseDigits, hc] at hparse
  have hsign : ¬ (c = '-' ∨ c = '+') := by
    rintro (h | h) <;> rw [h] at hc <;> revert hc <;> decide
  have hminus : ¬ c = '-' := fun h => hsign (Or.inl h)
  unfold Atoi
  rw [hs]
  dsimp only
  rw [if_neg hsign, if_neg (by simp), hparse]
  dsimp only
  rw [if_neg hminus, if_pos ⟨by omega, hn⟩]

theorem Atoi_of_minus_digits (s : String) (rest : List Char) (n : Nat)
    (hs : s.data = '-' :: rest) (hne : rest ≠ []) (hparse : parseDigits 0 rest = some n)
    (hn : (n : Int) ≤ 2 ^ 63) : Atoi s = some (-(n : Int)) := by
  have hempty : rest.isEmpty = false := by
    cases rest with
    | nil => exact absurd rfl hne
    | cons _ _ => rfl
  unfold Atoi
  rw [hs]
  dsimp only
  rw [if_pos (Or.inl rfl), if_neg (by simp [hempty]), hparse]
  dsimp only
  rw [if_pos rfl, if_pos ⟨by omega, by omega⟩]

/-- `strconv.Atoi` reads back the decimal rendering of every 64-bit integer. -/
theorem Atoi_formatDecimal (n : Int) (h : -2 ^ 63 ≤ n ∧ n < 2 ^ 63) :
    Atoi (formatDecimal n) = some n := by
  cases n with
  | ofNat m =>
    obtain ⟨hne, hparse⟩ := parseDigits_toDigits m
    cases hd : Nat.toDigits 10 m with
    | nil => exact absurd hd hne
    | cons c rest =>
      rw [hd] at hparse
      exact Atoi_of_digits (formatDecimal (Int.ofNat m)) c rest m hd hparse h.2
  | negSucc m =>
    obtain ⟨hne, hparse⟩ := parseDigits_toDigits (m + 1)
    have := Atoi_of_minus_digits (formatDecimal (Int.negSucc m)) (Nat.toDigits 10 (m + 1))
      (m + 1) rfl hne hparse (by have := h.1; rw [Int.negSucc_eq] at this; push_cast; omega)
    rw [this, Int.negSucc_eq]
    push_cast
    rfl

/-- C15: for every integer `n` of the signed 32-bit range, a plan whose product metadata
maps "minQuantity" to the decimal rendering of `n` has the minimum quantity `n`, also when
`n` is negative. -/
theorem ProductPlanMinQuantity_round_trip (plan : stripe.Plan) (n : Int)
    (hn : -2 ^ 31 ≤ n ∧ n ≤ 2 ^ 31 - 1)
    (hmeta : plan.Product.Metadata.lookup "minQuantity" = some (formatDecimal n)) :
    ProductPlanMinQuantity plan = some n := by
  unfold ProductPlanMinQuantity mapIndex
  rw [hmeta, Option.getD_some, Atoi_formatDecimal n ⟨by omega, by omega⟩]
  simp only []
  rw [toInt32_of_range n hn]

theorem ProductPlanMinQuantity_round_trip_witness :
    ((-2 : Int) ^ 31 ≤ -3 ∧ (-3 : Int) ≤ 2 ^ 31 - 1) ∧
    formatDecimal (-3) = "-3" ∧
    ProductPlanMinQuantity (samplePlan "plan_a" "usd" 2900 [("minQuantity", "-3")]) =
      some (-3) :=
  ⟨by decide, rfl,
    ProductPlanMinQuantity_round_trip (samplePlan "plan_a" "usd" 2900 [("minQuantity", "-3")])
      (-3) (by decide) rfl⟩

/-! ## The offending value in the error messages -/

theorem Quote_contains_of_plain (isPrintTable : Char → Bool) (s : String)
    (h : plainString isPrintTable s) : s.data <:+: (Quote isPrintTable s).data := by
  unfold Quote
  rw [flatMap_eq_self_of_singleton _ _ (fun c hc => escapedRune_of_print isPrintTable c (h c hc))]
  exact ⟨[quoteChar], [quoteChar], by simp⟩

theorem infix_of_middle (front value back : String) :
    value.data <:+: (front ++ value ++ back).data := by
  rw [String.data_append, String.data_append]
  exact ⟨front.data, back.data, rfl⟩

/-- C16 (amended): the wrong-currency message contains the raw currency, and the
wrong-interval message the raw interval, as the verb `%q` prints them (`strconv.Quote`),
and the string itself whenever each of its characters is printable and is neither the
double quote nor the backslash; the wrong-interval-count message contains the decimal
rendering of the raw interval count. -/
theorem ToProductPlan_error_contains_value (isPrintTable : Char → Bool)
    (plan : stripe.Plan) :
    (plan.Product.Name ≠ "" → plan.Currency ≠ "usd" →
      ∃ err, ToProductPlan isPrintTable plan = .error err ∧
        (Quote isPrintTable plan.Currency).data <:+: err.data ∧
        (plainString isPrintTable plan.Currency → plan.Currency.data <:+: err.data)) ∧
    (plan.Product.Name ≠ "" → plan.Currency = "usd" → plan.Interval ≠ "year" →
      ∃ err, ToProductPlan isPrintTable plan = .error err ∧
        (Quote isPrintTable plan.Interval).data <:+: err.data ∧
        (plainString isPrintTable plan.Interval → plan.Interval.data <:+: err.data)) ∧
    (plan.Product.Name ≠ "" → plan.Currency = "usd" → plan.Interval = "year" →
      plan.IntervalCount ≠ 1 →
      ∃ err, ToProductPlan isPrintTable plan = .error err ∧
        (formatDecimal plan.IntervalCount).data <:+: err.data) := by
  refine ⟨?_, ?_, ?_⟩
  · intro h1 h2
    have hq := infix_of_middle "unexpected currency " (Quote isPrintTable plan.Currency)
      (" for plan " ++ Quote isPrintTable plan.ID)
    refine ⟨_, by simp [ToProductPlan, h1, h2, stripe.CurrencyUSD]; rfl, ?_, ?_⟩
    · simpa [String.append_assoc] using hq
    · intro hp
      exact (Quote_contains_of_plain isPrintTable plan.Currency hp).trans
        (by simpa [String.append_assoc] using hq)
  · intro h1 h2 h3
    have hq := infix_of_middle "unexpected plan interval " (Quote isPrintTable plan.Interval)
      (" for plan " ++ Quote isPrintTable plan.ID)
    refine ⟨_, by simp [ToProductPlan, h1, h2, h3, stripe.CurrencyUSD,
      stripe.PlanIntervalYear]; rfl, ?_, ?_⟩
    · simpa [String.append_assoc] using hq
    · intro hp
      exact (Quote_contains_of_plain isPrintTable plan.Interval hp).trans
        (by simpa [String.append_assoc] using hq)
  · intro h1 h2 h3 h4
    have hq := infix_of_middle "unexpected plan interval count "
      (formatDecimal plan.IntervalCount) (" for plan " ++ Quote isPrintTable plan.ID)
    refine ⟨_, by simp [ToProductPlan, h1, h2, h3, h4, stripe.CurrencyUSD,
      stripe.PlanIntervalYear]; rfl, ?_⟩
    simpa [String.append_assoc] using hq


theorem ToProductPlan_error_contains_value_witness :
    ((sampleRawPlan "Team" "eur" "month" 2).Product.Name ≠ "" ∧
      (sampleRawPlan "Team" "eur" "month" 2).Currency ≠ "usd") ∧
    ToProductPlan noWideTable (sampleRawPlan "Team" "eur" "month" 2) =
      .error "unexpected currency \"eur\" for plan \"plan_x\"" ∧
    "eur".data <:+: "unexpected currency \"eur\" for plan \"plan_x\"".data ∧
    ToProductPlan noWideTable (sampleRawPlan "Team" "usd" "year" 2) =
      .error "unexpected plan interval count 2 for plan \"plan_x\"" ∧
    "2".data <:+: "unexpected plan interval count 2 for plan \"plan_x\"".data := by
  obtain ⟨err, he, _, hp⟩ :=
    (ToProductPlan_error_contains_value noWideTable (sampleRawPlan "Team" "eur" "month" 2)).1
      (by decide) (by decide)
  obtain ⟨err2, he2, hd⟩ :=
    (ToProductPlan_error_contains_value noWideTable (sampleRawPlan "Team" "usd" "year" 2)).2.2
      (by decide) rfl rfl (by decide)
  have h1 : ToProductPlan noWideTable (sampleRawPlan "Team" "eur" "month" 2) =
      .error "unexpected currency \"eur\" for plan \"plan_x\"" := rfl
  have h2 : ToProductPlan noWideTable (sampleRawPlan "Team" "usd" "year" 2) =
      .error "unexpected plan interval count 2 for plan \"plan_x\"" := rfl
  rw [h1] at he
  rw [h2] at he2
  rw [← Except.error.inj he] at hp
  rw [← Except.error.inj he2] at hd
  exact ⟨by decide, h1, hp (by decide), h2, hd⟩

/-- C16 (as stated) fails: for the currency `"usd"`, written with its double quotes, the
message holds `\"usd\"`, in which the raw currency does not occur. -/
theorem ToProductPlan_error_omits_raw_currency :
    (∀ isPrintTable, ToProductPlan isPrintTable (sampleRawPlan "Team" "\"usd\"" "year" 1) =
      .error "unexpected currency \"\\\"usd\\\"\" for plan \"plan_x\"") ∧
    ¬ ("\"usd\"".data <:+: "unexpected currency \"\\\"usd\\\"\" for plan \"plan_x\"".data) :=
  ⟨fun _ => rfl, by decide⟩

/-! ## The accessors of the tiers -/

/-- C17: for every tier of a plan `ToProductPlan` returns, `UnitAmount()` and `UpTo()` give
the raw tier's unit amount and upper bound narrowed to a signed 32-bit integer: the raw
value itself when that lies in [-2^31, 2^31 - 1], and in every case the value of that range
congruent to the raw value modulo 2^32. -/
theorem ToProductPlan_tier_accessors (isPrintTable : Char → Bool) (plan : stripe.Plan)
    (gqlPlan : productPlan) (h : ToProductPlan isPrintTable plan = .ok gqlPlan) :
    gqlPlan.PlanTiers.length = plan.Tiers.length ∧
    ∀ (i : Nat) (h1 : i < gqlPlan.PlanTiers.length) (h2 : i < plan.Tiers.length),
      ((-2 ^ 31 ≤ (plan.Tiers[i]).UnitAmount ∧ (plan.Tiers[i]).UnitAmount ≤ 2 ^ 31 - 1 →
          (gqlPlan.PlanTiers[i]).UnitAmount = (plan.Tiers[i]).UnitAmount) ∧
        (-2 ^ 31 ≤ (gqlPlan.PlanTiers[i]).UnitAmount ∧
          (gqlPlan.PlanTiers[i]).UnitAmount ≤ 2 ^ 31 - 1) ∧
        (gqlPlan.PlanTiers[i]).UnitAmount % 2 ^ 32 = (plan.Tiers[i]).UnitAmount % 2 ^ 32) ∧
      ((-2 ^ 31 ≤ (plan.Tiers[i]).UpTo ∧ (plan.Tiers[i]).UpTo ≤ 2 ^ 31 - 1 →
          (gqlPlan.PlanTiers[i]).UpTo = (plan.Tiers[i]).UpTo) ∧
        (-2 ^ 31 ≤ (gqlPlan.PlanTiers[i]).UpTo ∧ (gqlPlan.PlanTiers[i]).UpTo ≤ 2 ^ 31 - 1) ∧
        (gqlPlan.PlanTiers[i]).UpTo % 2 ^ 32 = (plan.Tiers[i]).UpTo % 2 ^ 32) := by
  have hg := (ToProductPlan_ok_inv isPrintTable plan gqlPlan h).2
  have ht : gqlPlan.PlanTiers =
      plan.Tiers.map (fun tier => { unitAmount := tier.UnitAmount, upTo := tier.UpTo }) := by
    rw [hg]
    show appendTiers [] plan.Tiers = _
    rw [appendTiers_eq, List.nil_append]
  constructor
  · rw [ht, List.length_map]
  · intro i h1 h2
    have hu : (gqlPlan.PlanTiers[i]).UnitAmount = toInt32 (plan.Tiers[i]).UnitAmount := by
      simp [ht, planTier.UnitAmount]
    have hb : (gqlPlan.PlanTiers[i]).UpTo = toInt32 (plan.Tiers[i]).UpTo := by
      simp [ht, planTier.UpTo]
    rw [hu, hb]
    exact ⟨⟨toInt32_of_range _, toInt32_range _, toInt32_emod _⟩,
      ⟨toInt32_of_range _, toInt32_range _, toInt32_emod _⟩⟩

theorem ToProductPlan_tier_accessors_witness :
    ToProductPlan noWideTable sampleWidePlan = .ok (builtPlan sampleWidePlan) ∧
    sampleWidePlan.Tiers = [{ UnitAmount := 5000, UpTo := 25 },
      { UnitAmount := 5000000000, UpTo := 0 }] ∧
    (builtPlan sampleWidePlan).PlanTiers.map (fun t => (t.UnitAmount, t.UpTo)) =
      [(5000, 25), (705032704, 0)] ∧
    (builtPlan sampleWidePlan).PlanTiers.length = sampleWidePlan.Tiers.length :=
  ⟨rfl, rfl, by decide,
    (ToProductPlan_tier_accessors noWideTable sampleWidePlan _ rfl).1⟩

/-! ## The names of the plans of a catalog -/

theorem collectPlans_ok_inv (isPrintTable : Char → Bool) (plans : List stripe.Plan) :
    ∀ gqlPlans result : List productPlan,
      collectPlans isPrintTable gqlPlans plans = .ok result →
      ∀ p ∈ plans, ∃ g, ToProductPlan isPrintTable p = .ok g := by
  induction plans with
  | nil => intro _ _ _ p hp; cases hp
  | cons q rest ih =>
    intro gqlPlans result h p hp
    unfold collectPlans at h
    cases hq : ToProductPlan isPrintTable q with
    | error e => rw [hq] at h; cases h
    | ok g =>
      rw [hq] at h
      rcases List.mem_cons.mp hp with hpq | hpr
      · exact ⟨g, by rw [hpq]; exact hq⟩
      · exact ih _ result h p hpr

theorem ProductPlans_ok_inv (isPrintTable : Char → Bool) (plans : PlanIter)
    (gqlPlans : List productPlan) (h : ProductPlans isPrintTable plans = .ok gqlPlans) :
    (∀ p ∈ plans.plans, ∃ g, ToProductPlan isPrintTable p = .ok g) ∧ plans.err = none := by
  unfold ProductPlans at h
  cases hc : collectPlans isPrintTable [] plans.plans with
  | error e => rw [hc] at h; cases h
  | ok collected =>
    refine ⟨collectPlans_ok_inv isPrintTable plans.plans [] collected hc, ?_⟩
    rw [hc] at h
    cases he : plans.err with
    | none => rfl
    | some e => rw [he] at h; cases h

theorem append_ne_self_of_ne_empty (front name : String) (h : name ≠ "") :
    front ++ name ≠ front := by
  intro heq
  apply h
  have hd := congrArg String.data heq
  rw [String.data_append] at hd
  exact String.ext (List.append_right_eq_self.mp hd)

/-- C18: every plan of a list `ProductPlans` returns has a non-empty `Name()`, and its
`NameWithBrand()` is "Sourcegraph " followed by that name, hence never "Sourcegraph "
alone. -/
theorem ProductPlans_names (isPrintTable : Char → Bool) (plans : PlanIter)
    (gqlPlans : List productPlan) (h : ProductPlans isPrintTable plans = .ok gqlPlans) :
    ∀ g ∈ gqlPlans, g.Name ≠ "" ∧ g.NameWithBrand = "Sourcegraph " ++ g.Name ∧
      g.NameWithBrand ≠ "Sourcegraph " := by
  obtain ⟨hall, herr⟩ := ProductPlans_ok_inv isPrintTable plans gqlPlans h
  rw [ProductPlans_of_ok isPrintTable plans hall herr] at h
  have hcat := (Except.ok.inj h).symm
  intro g hg
  rw [hcat] at hg
  have hmem := (sortSlice_perm _ _).mem_iff.mp hg
  obtain ⟨p, hp, hpg⟩ := List.mem_map.mp hmem
  obtain ⟨built, hbuilt⟩ := hall p hp
  have hname : g.Name ≠ "" := by
    rw [← hpg]
    exact (ToProductPlan_ok_inv isPrintTable p built hbuilt).1.1
  exact ⟨hname, rfl, append_ne_self_of_ne_empty "Sourcegraph " g.Name hname⟩

theorem ProductPlans_names_witness :
    (∃ gqlPlans, ProductPlans noWideTable sampleListing = .ok gqlPlans ∧
      gqlPlans.map (fun g => g.NameWithBrand) =
        ["Sourcegraph Team", "Sourcegraph Team", "Sourcegraph Team"]) ∧
    ∀ g ∈ sortSlice (fun a b => decide (a.PricePerUserPerYear < b.PricePerUserPerYear))
        (sampleListing.plans.map builtPlan),
      g.Name ≠ "" ∧ g.NameWithBrand = "Sourcegraph " ++ g.Name ∧
        g.NameWithBrand ≠ "Sourcegraph " :=
  ⟨⟨_, rfl, rfl⟩, ProductPlans_names noWideTable sampleListing _ rfl⟩

end billing
